import Mathlib

/-!
Shallow embedding of the quantum-state simulator in `src/state.py`.

Basis states (`bitarray` values of length `n_qubits`) are modelled as
functions `Fin n → Bool`, with index `0` the leftmost (most significant)
position, matching `format(i, "0nb")`.  Complex float amplitudes are
modelled as exact complex numbers `ℂ`.  The amplitude map (`self.state`,
a pyfunctional `seq` of pairs) is modelled as a list of pairs.

Because pyfunctional sequences are lazily evaluated, a gate call itself
never raises: it replaces the stored sequence by a pipeline that raises
when it is next forced (by `run`, `get_probabilities`, or `__str__`).
We model the stored sequence as `Option (AmpMap n)`: `none` is a
pipeline that raises when forced, `some l` a pipeline that evaluates to
the list `l`.
-/

namespace QuantumSim

/-- A basis state: an ordered sequence of `n` bits, index `0` leftmost. -/
abbrev BasisState (n : ℕ) := Fin n → Bool

/-- Model of `set_bit`: set the `i`-th bit of `x` to value `v`. -/
def set_bit {n : ℕ} (x : BasisState n) (i : Fin n) (v : Bool) : BasisState n :=
  Function.update x i v

/-- Model of `flip`: negate the `i`-th bit of `x` (the source XORs `x` with the
mask `0^i 1 0^(n-i-1)`, which negates exactly bit `i`). -/
def flip {n : ℕ} (x : BasisState n) (i : Fin n) : BasisState n :=
  Function.update x i (!(x i))

/-- The bit string `format(i, "0nb")`: position `j` holds bit `n-1-j` of `i`. -/
def natToBits (n i : ℕ) : BasisState n := fun j => i.testBit (n - 1 - j.val)

/-- The all-zero basis state. -/
def zeroBasis (n : ℕ) : BasisState n := fun _ => false

/-- The amplitude map: a list of (basis state, complex amplitude) pairs,
modelling the pyfunctional `seq` of pairs stored in `self.state`. -/
abbrev AmpMap (n : ℕ) := List (BasisState n × ℂ)

/-- The keys (basis states) of an amplitude map, in list order. -/
def keys {n : ℕ} (l : AmpMap n) : List (BasisState n) := l.map Prod.fst

/-- The amplitude associated to basis state `k`: the sum of the amplitudes of
all entries whose key is `k` (the map semantics of the entry list). -/
def toFun {n : ℕ} (l : AmpMap n) (k : BasisState n) : ℂ :=
  (l.map (fun p => if p.1 = k then p.2 else 0)).sum

/-- Sum over all entries of the squared magnitude of the amplitude. -/
def entrySum {n : ℕ} (l : AmpMap n) : ℝ :=
  (l.map (fun p => Complex.normSq p.2)).sum

/-- Well-formedness of an amplitude map as produced by the simulator: the keys
are pairwise distinct and every length-`n` basis state occurs as a key. -/
def Complete {n : ℕ} (l : AmpMap n) : Prop :=
  (keys l).Nodup ∧ ∀ b : BasisState n, b ∈ keys l

instance {n : ℕ} (l : AmpMap n) : Decidable (Complete l) := by
  unfold Complete; infer_instance

/-- One step of a Python dict build-up: if key `k` is present, add `v` to its
stored value (in place); otherwise append the new binding at the end. -/
def insertW {n : ℕ} (l : AmpMap n) (k : BasisState n) (v : ℂ) : AmpMap n :=
  if k ∈ keys l then l.map (fun p => if p.1 = k then (p.1, p.2 + v) else p)
  else l ++ [(k, v)]

/-- Model of pyfunctional `reduce_by_key(lambda x, y: x + y)`: fold the pairs
into a dict keyed by basis state, summing amplitudes of equal keys; the result
lists keys in order of first occurrence. -/
def reduceByKey {n : ℕ} (l : AmpMap n) : AmpMap n :=
  l.foldl (fun acc p => insertW acc p.1 p.2) []

/-- The Hadamard normalisation factor `norm = 1 / sqrt(2)`. -/
noncomputable def norm : ℝ := 1 / Real.sqrt 2

/-- The factor `(-1) ** b[j]` of the Hadamard branch with bit `j` set to 1. -/
def psign (b : Bool) : ℂ := (-1) ^ (cond b 1 0 : ℕ)

/-- The T-gate phase `exp(1j * pi / 4)`. -/
noncomputable def tPhase : ℂ := Complex.exp (Complex.I * Real.pi / 4)

/-- Model of the `X` gate body: `smap(lambda b, a: (flip(b, j), a))`. -/
def xMap {n : ℕ} (j : Fin n) (l : AmpMap n) : AmpMap n :=
  l.map fun p => (flip p.1 j, p.2)

/-- Model of the `CX` gate body:
`smap(lambda b, a: (b if not b[j] else flip(b, k), a))`. -/
def cxMap {n : ℕ} (j k : Fin n) (l : AmpMap n) : AmpMap n :=
  l.map fun p => (if p.1 j then flip p.1 k else p.1, p.2)

/-- Model of the `S` gate body: `smap(lambda b, a: (b, (1j ** b[j]) * a))`. -/
def sMap {n : ℕ} (j : Fin n) (l : AmpMap n) : AmpMap n :=
  l.map fun p => (p.1, Complex.I ^ (cond (p.1 j) 1 0 : ℕ) * p.2)

/-- Model of the `T` gate body: `smap(lambda b, a: (b, (phase ** b[j]) * a))`. -/
noncomputable def tMap {n : ℕ} (j : Fin n) (l : AmpMap n) : AmpMap n :=
  l.map fun p => (p.1, tPhase ^ (cond (p.1 j) 1 0 : ℕ) * p.2)

/-- The two entries produced from one entry by the Hadamard `smap`:
`[(set_bit(b, j, 0), a * norm), (set_bit(b, j, 1), a * norm * ((-1) ** b[j]))]`. -/
noncomputable def hBranch {n : ℕ} (j : Fin n) (p : BasisState n × ℂ) : AmpMap n :=
  [(set_bit p.1 j false, p.2 * (norm : ℂ)),
   (set_bit p.1 j true, p.2 * (norm : ℂ) * psign (p.1 j))]

/-- Model of the `H` gate body: `smap(...).flatten().reduce_by_key(+)`. -/
noncomputable def hMap {n : ℕ} (j : Fin n) (l : AmpMap n) : AmpMap n :=
  reduceByKey ((l.map (hBranch j)).flatten)

/-- The initial amplitude list built by `State.__init__`: one entry per
`i in range(2 ** n_qubits)`, amplitude `1.0` for `i == 0` and `0.0` otherwise. -/
def initAmp (n : ℕ) : AmpMap n :=
  (List.range (2 ^ n)).map fun i => (natToBits n i, if i = 0 then 1 else 0)

/-- The simulator state.  `n_qubits` is the type index `n`; the remaining
fields mirror the Python attributes.  `state = none` models a lazy pipeline
that raises when forced. -/
structure State (n : ℕ) where
  n_bits : ℕ
  state : Option (AmpMap n)
  cbits : List ℕ
  measurement_qubits : Finset ℕ
  measure_all_flag : Bool

/-- Model of `State.__init__(n_qubits, n_bits)` after its
`assert n_qubits > 0 and n_bits >= 0` succeeds. -/
def State.init (n n_bits : ℕ) : State n :=
  { n_bits := n_bits
    state := some (initAmp n)
    cbits := List.replicate n_bits 0
    measurement_qubits := ∅
    measure_all_flag := false }

/-- Model of `State.copy`: a fresh `State(n_qubits, n_bits)` whose every field
is then overwritten with a value copy of the corresponding field. -/
def State.copy {n : ℕ} (st : State n) : State n :=
  let new := State.init n st.n_bits
  { new with
    state := st.state
    cbits := st.cbits
    measurement_qubits := st.measurement_qubits
    measure_all_flag := st.measure_all_flag }

/-- Model of `State.x(j)`.  With an in-range index the stored pipeline maps
every entry through `flip`; out of range, forcing the nonempty pipeline
evaluates `flip` on some entry, whose mask has length `≠ n`, so the XOR raises
(an empty pipeline evaluates no entry and stays empty). -/
def State.x {n : ℕ} (st : State n) (j : ℕ) : State n :=
  { st with
    state := st.state.bind fun l =>
      if h : j < n then some (xMap ⟨j, h⟩ l)
      else if l.isEmpty then some l else none }

/-- Model of `State.cx(j, k)`.  Forcing reads bit `j` of every entry (raising
if `j` is out of range) and evaluates `flip(b, k)` exactly on the entries whose
bit `j` is set, so an out-of-range `k` raises iff such an entry exists. -/
def State.cx {n : ℕ} (st : State n) (j k : ℕ) : State n :=
  { st with
    state := st.state.bind fun l =>
      if hj : j < n then
        if hk : k < n then some (cxMap ⟨j, hj⟩ ⟨k, hk⟩ l)
        else if l.all (fun p => !(p.1 ⟨j, hj⟩)) then some l else none
      else if l.isEmpty then some l else none }

/-- Model of `State.s(j)`; forcing reads bit `j` of every entry. -/
def State.s {n : ℕ} (st : State n) (j : ℕ) : State n :=
  { st with
    state := st.state.bind fun l =>
      if h : j < n then some (sMap ⟨j, h⟩ l)
      else if l.isEmpty then some l else none }

/-- Model of `State.t(j)`; forcing reads bit `j` of every entry. -/
noncomputable def State.t {n : ℕ} (st : State n) (j : ℕ) : State n :=
  { st with
    state := st.state.bind fun l =>
      if h : j < n then some (tMap ⟨j, h⟩ l)
      else if l.isEmpty then some l else none }

/-- Model of `State.h(j)`; forcing writes bit `j` of every entry. -/
noncomputable def State.h {n : ℕ} (st : State n) (j : ℕ) : State n :=
  { st with
    state := st.state.bind fun l =>
      if h : j < n then some (hMap ⟨j, h⟩ l)
      else if l.isEmpty then some l else none }

/-- Model of `State.measure(j, cbit)`: adds `j` to `measurement_qubits`
unconditionally; `cbit` is accepted and ignored.  No validation happens. -/
def State.measure {n : ℕ} (st : State n) (j : ℕ) (cbit : Option ℕ) : State n :=
  { st with measurement_qubits := insert j st.measurement_qubits }

/-- Model of `State.measure_all()`: sets the flag. -/
def State.measure_all {n : ℕ} (st : State n) : State n :=
  { st with measure_all_flag := true }

/-- A single gate call, for quantifying over gate sequences. -/
inductive Gate where
  | x (j : ℕ)
  | cx (j k : ℕ)
  | s (j : ℕ)
  | t (j : ℕ)
  | h (j : ℕ)

/-- In-range indices for a gate on an `nq`-qubit register; for `cx` the
control and target are additionally distinct. -/
def Gate.wf (nq : ℕ) : Gate → Prop
  | .x j => j < nq
  | .cx j k => j < nq ∧ k < nq ∧ j ≠ k
  | .s j => j < nq
  | .t j => j < nq
  | .h j => j < nq

instance (nq : ℕ) (g : Gate) : Decidable (g.wf nq) := by
  cases g <;> (unfold Gate.wf; infer_instance)

/-- Apply one gate call to a state. -/
noncomputable def applyGate {n : ℕ} (g : Gate) (st : State n) : State n :=
  match g with
  | .x j => st.x j
  | .cx j k => st.cx j k
  | .s j => st.s j
  | .t j => st.t j
  | .h j => st.h j

/-- Apply a sequence of gate calls, left to right. -/
noncomputable def applyGates {n : ℕ} (gs : List Gate) (st : State n) : State n :=
  gs.foldl (fun st g => applyGate g st) st

/-- Model of `sum(abs(a) ** 2 for b, a in current_state if not b[qubit])`. -/
def prob0 {n : ℕ} (q : Fin n) (cs : AmpMap n) : ℝ :=
  ((cs.filter (fun p => !(p.1 q))).map (fun p => Complex.normSq p.2)).sum

/-- Model of the measurement-0 collapse list comprehension
`[(b, a / sqrt(prob_0)) for b, a in current_state if not b[qubit] and prob_0 > 0]`:
the filter (including the `prob_0 > 0` guard) runs before any division. -/
noncomputable def collapse0 {n : ℕ} (q : Fin n) (p : ℝ) (cs : AmpMap n) : AmpMap n :=
  (cs.filter (fun e => !(e.1 q) && decide (0 < p))).map
    (fun e => (e.1, e.2 / (Real.sqrt p : ℂ)))

/-- Model of the measurement-1 collapse list comprehension
`[(b, a / sqrt(prob_1)) for b, a in current_state if b[qubit] and prob_1 > 0]`. -/
noncomputable def collapse1 {n : ℕ} (q : Fin n) (p : ℝ) (cs : AmpMap n) : AmpMap n :=
  (cs.filter (fun e => e.1 q && decide (0 < p))).map
    (fun e => (e.1, e.2 / (Real.sqrt p : ℂ)))

/-- One iteration of the per-qubit measurement loop inside a shot.  The
accumulator carries the collapsing amplitude list, the `result_bits` list and
the index of the next random draw.  An out-of-range qubit raises (either at
`b[qubit]` or at `result_bits[qubit]`). -/
noncomputable def measureOne {n : ℕ} (rand : ℕ → ℝ)
    (acc : AmpMap n × List Bool × ℕ) (q : ℕ) :
    Option (AmpMap n × List Bool × ℕ) :=
  if h : q < n then
    let p0 := prob0 ⟨q, h⟩ acc.1
    let m : ℕ := if p0 ≤ rand acc.2.2 then 1 else 0
    let bits := acc.2.1.set q (decide (m = 1))
    let cs := if m = 0 then collapse0 ⟨q, h⟩ p0 acc.1
              else collapse1 ⟨q, h⟩ (1 - p0) acc.1
    some (cs, bits, acc.2.2 + 1)
  else none

/-- One shot: force the copied state's amplitude pipeline, measure each
scheduled qubit in order, and read the result string off `result_bits`. -/
noncomputable def doShot {n : ℕ} (rand : ℕ → ℝ) (st : State n) (qs : List ℕ)
    (k : ℕ) : Option (List Bool × ℕ) := do
  let cs ← st.copy.state
  let r ← qs.foldlM (measureOne rand) (cs, List.replicate n false, k)
  some (if st.measure_all_flag then r.2.1
        else qs.map (fun q => r.2.1.getD q false), r.2.2)

/-- Model of `counts[result] = counts.get(result, 0) + 1` on an
insertion-ordered dict. -/
def addCount (counts : List (List Bool × ℕ)) (r : List Bool) :
    List (List Bool × ℕ) :=
  if r ∈ counts.map Prod.fst then
    counts.map (fun p => if p.1 = r then (p.1, p.2 + 1) else p)
  else counts ++ [(r, 1)]

/-- The shots loop of `run`. -/
noncomputable def runLoop {n : ℕ} (rand : ℕ → ℝ) (st : State n) (qs : List ℕ) :
    ℕ → List (List Bool × ℕ) → ℕ → Option (List (List Bool × ℕ))
  | 0, counts, _ => some counts
  | m + 1, counts, k =>
    (doShot rand st qs k).bind fun r => runLoop rand st qs m (addCount counts r.1) r.2

/-- Lexicographic order on bit strings rendered with `0 < 1`, as Python
compares the `"".join(...)` result strings. -/
def lexLe : List Bool → List Bool → Bool
  | [], _ => true
  | _ :: _, [] => false
  | a :: as, b :: bs => (!a && b) || (a == b && lexLe as bs)

/-- Model of `dict(sorted(counts.items()))`: counts sorted by result string. -/
def sortCounts (counts : List (List Bool × ℕ)) : List (List Bool × ℕ) :=
  List.insertionSort (fun p q => lexLe p.1 q.1 = true) counts

/-- Model of `run(state, shots)`.  `rand` is the stream of
`random.random()` draws.  `none` models an uncaught exception; the two
explicit `raise ValueError` checks come first, then the shots. -/
noncomputable def run {n : ℕ} (st : State n) (shots : ℤ) (rand : ℕ → ℝ) :
    Option (List (List Bool × ℕ)) :=
  if shots ≤ 0 then none
  else if st.measurement_qubits = ∅ ∧ st.measure_all_flag = false then none
  else
    let qs := if st.measure_all_flag then List.range n
              else st.measurement_qubits.sort (· ≤ ·)
    (runLoop rand st qs shots.toNat [] 0).map sortCounts

/-- `run` together with the caller's state as it stands when `run` returns:
the source's `run` assigns only to `temp_state` (a fresh `state.copy()` per
shot) and never to any field of `state`, so the second component is the
unchanged input state. -/
noncomputable def runFull {n : ℕ} (st : State n) (shots : ℤ) (rand : ℕ → ℝ) :
    Option (List (List Bool × ℕ)) × State n :=
  (run st shots rand, st)

/-! ### Basic lemmas about `toFun`, `flip`, `set_bit` -/

lemma toFun_nil {n : ℕ} (k : BasisState n) : toFun ([] : AmpMap n) k = 0 := rfl

lemma toFun_cons {n : ℕ} (p : BasisState n × ℂ) (l : AmpMap n) (k : BasisState n) :
    toFun (p :: l) k = (if p.1 = k then p.2 else 0) + toFun l k := by
  simp [toFun]

lemma toFun_append {n : ℕ} (l₁ l₂ : AmpMap n) (k : BasisState n) :
    toFun (l₁ ++ l₂) k = toFun l₁ k + toFun l₂ k := by
  simp [toFun]

lemma toFun_eq_zero_of_not_mem {n : ℕ} {l : AmpMap n} {k : BasisState n}
    (h : k ∉ keys l) : toFun l k = 0 := by
  induction l with
  | nil => rfl
  | cons p t ih =>
    rw [keys, List.map_cons, List.mem_cons, not_or] at h
    rw [toFun_cons, if_neg (fun hh => h.1 hh.symm), ih h.2, add_zero]

lemma toFun_entry {n : ℕ} {l : AmpMap n} (h : (keys l).Nodup)
    {p : BasisState n × ℂ} (hp : p ∈ l) : toFun l p.1 = p.2 := by
  induction l with
  | nil => cases hp
  | cons q t ih =>
    rw [keys, List.map_cons, List.nodup_cons] at h
    rcases List.mem_cons.1 hp with rfl | hp'
    · rw [toFun_cons, if_pos rfl, toFun_eq_zero_of_not_mem h.1, add_zero]
    · have hq : q.1 ≠ p.1 := by
        intro hqe
        exact h.1 (hqe ▸ List.mem_map_of_mem Prod.fst hp')
      rw [toFun_cons, if_neg hq, ih h.2 hp', zero_add]

lemma flip_apply_self {n : ℕ} (b : BasisState n) (j : Fin n) :
    flip b j j = !(b j) := by
  simp [flip]

lemma flip_apply_ne {n : ℕ} (b : BasisState n) {i j : Fin n} (h : i ≠ j) :
    flip b j i = b i := by
  simp [flip, Function.update_noteq h]

lemma flip_flip {n : ℕ} (b : BasisState n) (j : Fin n) :
    flip (flip b j) j = b := by
  unfold flip
  rw [Function.update_same, Bool.not_not, Function.update_idem,
    Function.update_eq_self]

lemma flip_injective {n : ℕ} (j : Fin n) : Function.Injective (flip · j) :=
  Function.LeftInverse.injective (g := (flip · j)) (fun b => flip_flip b j)

lemma set_bit_self_of_eq {n : ℕ} {b : BasisState n} {j : Fin n} {v : Bool}
    (h : b j = v) : set_bit b j v = b := by
  rw [set_bit, ← h, Function.update_eq_self]

/-! ### Lemmas about `insertW` and `reduceByKey` -/

lemma map_upd_eq_self {n : ℕ} {t : AmpMap n} {k : BasisState n} {v : ℂ}
    (h : k ∉ keys t) :
    t.map (fun p => if p.1 = k then (p.1, p.2 + v) else p) = t := by
  rw [List.map_congr_left, List.map_id]
  intro p hp
  have : p.1 ≠ k := fun he => h (he ▸ List.mem_map_of_mem Prod.fst hp)
  simp [this]

lemma keys_insertW_of_mem {n : ℕ} {l : AmpMap n} {k : BasisState n} (v : ℂ)
    (h : k ∈ keys l) : keys (insertW l k v) = keys l := by
  rw [insertW, if_pos h, keys, keys, List.map_map]
  apply List.map_congr_left
  intro p _
  by_cases hpk : p.1 = k <;> simp [hpk]

lemma keys_insertW_of_not_mem {n : ℕ} {l : AmpMap n} {k : BasisState n} (v : ℂ)
    (h : k ∉ keys l) : keys (insertW l k v) = keys l ++ [k] := by
  rw [insertW, if_neg h, keys, keys, List.map_append]
  rfl

lemma mem_keys_insertW {n : ℕ} {l : AmpMap n} {k k' : BasisState n} (v : ℂ) :
    k' ∈ keys (insertW l k v) ↔ k' ∈ keys l ∨ k' = k := by
  by_cases h : k ∈ keys l
  · rw [keys_insertW_of_mem v h]
    constructor
    · exact Or.inl
    · rintro (hh | rfl)
      · exact hh
      · exact h
  · rw [keys_insertW_of_not_mem v h]
    simp

lemma nodup_keys_insertW {n : ℕ} (l : AmpMap n) (k : BasisState n) (v : ℂ)
    (h : (keys l).Nodup) : (keys (insertW l k v)).Nodup := by
  by_cases hm : k ∈ keys l
  · rw [keys_insertW_of_mem v hm]; exact h
  · rw [keys_insertW_of_not_mem v hm]
    refine List.Nodup.append h (List.nodup_singleton k) ?_
    intro a ha hb
    rw [List.mem_singleton] at hb
    exact hm (hb ▸ ha)

lemma toFun_insertW {n : ℕ} {l : AmpMap n} (k k' : BasisState n) (v : ℂ)
    (h : (keys l).Nodup) :
    toFun (insertW l k v) k' = toFun l k' + (if k = k' then v else 0) := by
  induction l with
  | nil =>
    have : k ∉ keys ([] : AmpMap n) := by simp [keys]
    rw [insertW, if_neg this, List.nil_append]
    simp [toFun]
  | cons p t ih =>
    rw [keys, List.map_cons, List.nodup_cons] at h
    by_cases hm : k ∈ keys (p :: t)
    · rw [insertW, if_pos hm, List.map_cons]
      by_cases hpk : p.1 = k
      · have hkt : k ∉ keys t := hpk ▸ h.1
        rw [map_upd_eq_self hkt, if_pos hpk, toFun_cons, toFun_cons]
        subst hpk
        by_cases hk' : p.1 = k'
        · rw [if_pos hk', if_pos hk', if_pos hk']; ring
        · rw [if_neg hk', if_neg hk', if_neg hk']; ring
      · have hm' : k ∈ keys t := by
          rcases List.mem_cons.1 hm with he | ht
          · exact absurd he.symm hpk
          · exact ht
        have hins : insertW t k v =
            t.map (fun q => if q.1 = k then (q.1, q.2 + v) else q) := by
          rw [insertW, if_pos hm']
        rw [if_neg hpk, ← hins, toFun_cons, toFun_cons, ih h.2]
        ring
    · rw [insertW, if_neg hm, toFun_append, toFun_cons]
      simp only [toFun_cons, toFun_nil, add_zero]

lemma reduceFold_spec {n : ℕ} (l : List (BasisState n × ℂ)) :
    ∀ acc : AmpMap n, (keys acc).Nodup →
      (keys (l.foldl (fun a p => insertW a p.1 p.2) acc)).Nodup ∧
      (∀ k, k ∈ keys (l.foldl (fun a p => insertW a p.1 p.2) acc) ↔
        k ∈ keys acc ∨ k ∈ keys l) ∧
      (∀ k, toFun (l.foldl (fun a p => insertW a p.1 p.2) acc) k =
        toFun acc k + toFun l k) := by
  induction l with
  | nil =>
    intro acc hacc
    refine ⟨hacc, fun k => ?_, fun k => ?_⟩
    · simp [keys]
    · simp [toFun]
  | cons p t ih =>
    intro acc hacc
    have hacc' := nodup_keys_insertW acc p.1 p.2 hacc
    obtain ⟨h1, h2, h3⟩ := ih (insertW acc p.1 p.2) hacc'
    refine ⟨h1, fun k => ?_, fun k => ?_⟩
    · rw [List.foldl_cons, h2 k, mem_keys_insertW]
      simp only [keys, List.map_cons, List.mem_cons]
      tauto
    · rw [List.foldl_cons, h3 k, toFun_insertW _ _ _ hacc, toFun_cons]
      ring

lemma nodup_keys_reduceByKey {n : ℕ} (l : AmpMap n) :
    (keys (reduceByKey l)).Nodup :=
  (reduceFold_spec l [] (by simp [keys])).1

lemma mem_keys_reduceByKey {n : ℕ} (l : AmpMap n) (k : BasisState n) :
    k ∈ keys (reduceByKey l) ↔ k ∈ keys l := by
  rw [reduceByKey, (reduceFold_spec l [] (by simp [keys])).2.1 k]
  simp [keys]

lemma toFun_reduceByKey {n : ℕ} (l : AmpMap n) (k : BasisState n) :
    toFun (reduceByKey l) k = toFun l k := by
  rw [reduceByKey, (reduceFold_spec l [] (by simp [keys])).2.2 k, toFun_nil,
    zero_add]

/-! ### Lemmas about `set_bit` and the Hadamard transform -/

lemma set_bit_apply_self {n : ℕ} (b : BasisState n) (j : Fin n) (v : Bool) :
    set_bit b j v j = v := by
  simp [set_bit]

lemma set_bit_apply_ne {n : ℕ} (b : BasisState n) {i j : Fin n} (v : Bool)
    (h : i ≠ j) : set_bit b j v i = b i := by
  simp [set_bit, Function.update_noteq h]

lemma set_bit_set_bit {n : ℕ} (b : BasisState n) (j : Fin n) (v w : Bool) :
    set_bit (set_bit b j v) j w = set_bit b j w := by
  simp [set_bit, Function.update_idem]

lemma eq_of_set_bit_eq {n : ℕ} {c b : BasisState n} {j : Fin n} {v : Bool}
    (h : set_bit c j v = b) : c = set_bit b j (c j) := by
  funext i
  by_cases hi : i = j
  · subst hi; rw [set_bit_apply_self]
  · rw [set_bit_apply_ne _ _ hi, ← h, set_bit_apply_ne _ _ hi]

lemma set_bit_ne_of_apply_ne {n : ℕ} {b : BasisState n} {j : Fin n} {v : Bool}
    (h : b j ≠ v) : set_bit b j v ≠ b := by
  intro he
  exact h (by rw [← he, set_bit_apply_self])

lemma sum_map_add {n : ℕ} (l : AmpMap n) (f g : BasisState n × ℂ → ℂ) :
    (l.map (fun p => f p + g p)).sum = (l.map f).sum + (l.map g).sum := by
  induction l with
  | nil => simp
  | cons p t ih => simp [ih]; ring

lemma sum_ite_key {n : ℕ} (l : AmpMap n) (b : BasisState n) (c : ℂ) :
    (l.map (fun p => if p.1 = b then p.2 * c else 0)).sum = toFun l b * c := by
  induction l with
  | nil => simp [toFun]
  | cons p t ih =>
    rw [List.map_cons, List.sum_cons, ih, toFun_cons]
    by_cases hp : p.1 = b
    · rw [if_pos hp, if_pos hp]; ring
    · rw [if_neg hp, if_neg hp]; ring

lemma toFun_flatten {n : ℕ} (l : AmpMap n) (f : BasisState n × ℂ → AmpMap n)
    (k : BasisState n) :
    toFun (l.map f).flatten k = (l.map (fun p => toFun (f p) k)).sum := by
  induction l with
  | nil => simp [toFun]
  | cons p t ih =>
    rw [List.map_cons, List.flatten_cons, toFun_append, ih, List.map_cons,
      List.sum_cons]

lemma toFun_hBranch_false {n : ℕ} (j : Fin n) (p : BasisState n × ℂ)
    {b : BasisState n} (hb : b j = false) :
    toFun (hBranch j p) b =
      (if p.1 = b then p.2 * (norm : ℂ) else 0) +
      (if p.1 = set_bit b j true then p.2 * (norm : ℂ) else 0) := by
  rw [hBranch, toFun_cons, toFun_cons, toFun_nil, add_zero]
  have h2 : set_bit p.1 j true ≠ b := by
    intro he
    rw [← he, set_bit_apply_self] at hb
    cases hb
  rw [if_neg h2, add_zero]
  by_cases h1 : p.1 = b
  · have : set_bit p.1 j false = b := by rw [h1]; exact set_bit_self_of_eq hb
    rw [if_pos this, if_pos h1]
    have hne : p.1 ≠ set_bit b j true := by
      rw [h1]; exact (set_bit_ne_of_apply_ne (by rw [hb]; simp)).symm
    rw [if_neg hne, add_zero]
  · by_cases h1' : p.1 = set_bit b j true
    · have : set_bit p.1 j false = b := by
        rw [h1', set_bit_set_bit]; exact set_bit_self_of_eq hb
      rw [if_pos this, if_neg h1, if_pos h1', zero_add]
    · have : set_bit p.1 j false ≠ b := by
        intro he
        have hc := eq_of_set_bit_eq he
        cases hcj : p.1 j
        · rw [hcj] at hc
          exact h1 (by rw [hc]; exact set_bit_self_of_eq hb)
        · rw [hcj] at hc
          exact h1' hc
      rw [if_neg this, if_neg h1, if_neg h1', add_zero]

lemma toFun_hBranch_true {n : ℕ} (j : Fin n) (p : BasisState n × ℂ)
    {b : BasisState n} (hb : b j = true) :
    toFun (hBranch j p) b =
      (if p.1 = set_bit b j false then p.2 * (norm : ℂ) else 0) +
      (if p.1 = b then p.2 * ((norm : ℂ) * (-1)) else 0) := by
  rw [hBranch, toFun_cons, toFun_cons, toFun_nil, add_zero]
  have h2 : set_bit p.1 j false ≠ b := by
    intro he
    rw [← he, set_bit_apply_self] at hb
    cases hb
  rw [if_neg h2, zero_add]
  by_cases h1 : p.1 = b
  · have : set_bit p.1 j true = b := by rw [h1]; exact set_bit_self_of_eq hb
    rw [if_pos this, if_pos h1]
    have hne : p.1 ≠ set_bit b j false := by
      rw [h1]; exact (set_bit_ne_of_apply_ne (by rw [hb]; simp)).symm
    rw [if_neg hne, zero_add, h1, hb]
    simp [psign]
  · by_cases h1' : p.1 = set_bit b j false
    · have hset : set_bit p.1 j true = b := by
        rw [h1', set_bit_set_bit]; exact set_bit_self_of_eq hb
      rw [if_pos hset, if_pos h1', if_neg h1, add_zero, h1',
        set_bit_apply_self]
      simp [psign]
    · have : set_bit p.1 j true ≠ b := by
        intro he
        have hc := eq_of_set_bit_eq he
        cases hcj : p.1 j
        · rw [hcj] at hc
          exact h1' hc
        · rw [hcj] at hc
          exact h1 (by rw [hc]; exact set_bit_self_of_eq hb)
      rw [if_neg this, if_neg h1, if_neg h1', add_zero]

lemma toFun_hMap_false {n : ℕ} (j : Fin n) (l : AmpMap n) {b : BasisState n}
    (hb : b j = false) :
    toFun (hMap j l) b =
      (toFun l b + toFun l (set_bit b j true)) * (norm : ℂ) := by
  rw [hMap, toFun_reduceByKey, toFun_flatten]
  rw [List.map_congr_left (fun p _ => toFun_hBranch_false j p hb),
    sum_map_add, sum_ite_key, sum_ite_key]
  ring

lemma toFun_hMap_true {n : ℕ} (j : Fin n) (l : AmpMap n) {b : BasisState n}
    (hb : b j = true) :
    toFun (hMap j l) b =
      (toFun l (set_bit b j false) - toFun l b) * (norm : ℂ) := by
  rw [hMap, toFun_reduceByKey, toFun_flatten]
  rw [List.map_congr_left (fun p _ => toFun_hBranch_true j p hb),
    sum_map_add, sum_ite_key, sum_ite_key]
  ring

/-! ### Norm and phase constants -/

lemma norm_mul_self : (norm : ℝ) * norm = 1 / 2 := by
  rw [norm, div_mul_div_comm, Real.mul_self_sqrt (by norm_num : (0:ℝ) ≤ 2)]
  norm_num

lemma coe_norm_mul_self : ((norm : ℝ) : ℂ) * ((norm : ℝ) : ℂ) = 1 / 2 := by
  rw [← Complex.ofReal_mul, norm_mul_self]
  norm_num

lemma normSq_coe_norm : Complex.normSq ((norm : ℝ) : ℂ) = 1 / 2 := by
  rw [Complex.normSq_ofReal, norm_mul_self]

lemma abs_tPhase : Complex.abs tPhase = 1 := by
  have h : Complex.I * (Real.pi : ℂ) / 4 = ((Real.pi / 4 : ℝ) : ℂ) * Complex.I := by
    push_cast
    ring
  rw [tPhase, h, Complex.abs_exp_ofReal_mul_I]

lemma normSq_tPhase : Complex.normSq tPhase = 1 := by
  rw [Complex.normSq_eq_abs, abs_tPhase, one_pow]

/-! ### Keys and `Complete` through each gate -/

lemma keys_xMap {n : ℕ} (j : Fin n) (l : AmpMap n) :
    keys (xMap j l) = (keys l).map (flip · j) := by
  simp [keys, xMap, List.map_map, Function.comp]

lemma keys_cxMap {n : ℕ} (j k : Fin n) (l : AmpMap n) :
    keys (cxMap j k l) = (keys l).map (fun b => if b j then flip b k else b) := by
  simp [keys, cxMap, List.map_map, Function.comp]

lemma keys_sMap {n : ℕ} (j : Fin n) (l : AmpMap n) : keys (sMap j l) = keys l := by
  simp [keys, sMap, List.map_map, Function.comp]

lemma keys_tMap {n : ℕ} (j : Fin n) (l : AmpMap n) : keys (tMap j l) = keys l := by
  simp [keys, tMap, List.map_map, Function.comp]

lemma cxStep_invol {n : ℕ} {j k : Fin n} (hjk : j ≠ k) (b : BasisState n) :
    (fun b : BasisState n => if b j then flip b k else b)
      ((fun b : BasisState n => if b j then flip b k else b) b) = b := by
  by_cases hb : b j
  · simp only [hb, if_true]
    have hj : flip b k j = b j := flip_apply_ne b hjk
    simp only [hj, hb, if_true, flip_flip]
  · simp only [hb]
    simp [hb]

lemma Complete_xMap {n : ℕ} (j : Fin n) {l : AmpMap n} (h : Complete l) :
    Complete (xMap j l) := by
  refine ⟨?_, ?_⟩
  · rw [keys_xMap]
    exact h.1.map (flip_injective j)
  · intro b
    rw [keys_xMap]
    have : b = flip (flip b j) j := (flip_flip b j).symm
    rw [this]
    exact List.mem_map_of_mem _ (h.2 (flip b j))

lemma Complete_cxMap {n : ℕ} {j k : Fin n} (hjk : j ≠ k) {l : AmpMap n}
    (h : Complete l) : Complete (cxMap j k l) := by
  have hli : Function.LeftInverse
      (fun b : BasisState n => if b j then flip b k else b)
      (fun b : BasisState n => if b j then flip b k else b) :=
    cxStep_invol hjk
  have hinj : Function.Injective
      (fun b : BasisState n => if b j then flip b k else b) :=
    hli.injective
  refine ⟨?_, ?_⟩
  · rw [keys_cxMap]
    exact h.1.map hinj
  · intro b
    rw [keys_cxMap]
    have : b = (fun b : BasisState n => if b j then flip b k else b)
        ((fun b : BasisState n => if b j then flip b k else b) b) :=
      (cxStep_invol hjk b).symm
    rw [this]
    exact List.mem_map_of_mem _ (h.2
      ((fun b : BasisState n => if b j then flip b k else b) b))

lemma Complete_sMap {n : ℕ} (j : Fin n) {l : AmpMap n} (h : Complete l) :
    Complete (sMap j l) := by
  refine ⟨?_, ?_⟩ <;> rw [keys_sMap]
  · exact h.1
  · exact h.2

lemma Complete_tMap {n : ℕ} (j : Fin n) {l : AmpMap n} (h : Complete l) :
    Complete (tMap j l) := by
  refine ⟨?_, ?_⟩ <;> rw [keys_tMap]
  · exact h.1
  · exact h.2

lemma Complete_hMap {n : ℕ} (j : Fin n) {l : AmpMap n}
    (h : ∀ b : BasisState n, b ∈ keys l) : Complete (hMap j l) := by
  refine ⟨nodup_keys_reduceByKey _, ?_⟩
  intro b
  show b ∈ keys (reduceByKey ((l.map (hBranch j)).flatten))
  rw [mem_keys_reduceByKey]
  have hb := h b
  rw [keys] at hb
  rcases List.mem_map.1 hb with ⟨p, hp, hpb⟩
  have hbk : b ∈ keys (hBranch j p) := by
    rw [hBranch, keys]
    cases hbj : b j
    · have hsb : set_bit p.1 j false = b := by
        rw [hpb]; exact set_bit_self_of_eq hbj
      rw [← hsb]
      simp
    · have hsb : set_bit p.1 j true = b := by
        rw [hpb]; exact set_bit_self_of_eq hbj
      rw [← hsb]
      simp
  rw [keys, List.mem_map] at hbk
  rcases hbk with ⟨q, hq, hqb⟩
  rw [keys, List.mem_map]
  exact ⟨q, List.mem_flatten.2 ⟨hBranch j p, List.mem_map_of_mem _ hp, hq⟩, hqb⟩

/-! ### `entrySum` through each gate -/

lemma entrySum_xMap {n : ℕ} (j : Fin n) (l : AmpMap n) :
    entrySum (xMap j l) = entrySum l := by
  simp only [entrySum, xMap, List.map_map]
  rfl

lemma entrySum_cxMap {n : ℕ} (j k : Fin n) (l : AmpMap n) :
    entrySum (cxMap j k l) = entrySum l := by
  simp only [entrySum, cxMap, List.map_map]
  rfl

lemma entrySum_sMap {n : ℕ} (j : Fin n) (l : AmpMap n) :
    entrySum (sMap j l) = entrySum l := by
  simp only [entrySum, sMap, List.map_map]
  congr 1
  apply List.map_congr_left
  intro p _
  simp only [Function.comp_apply]
  cases hp : p.1 j <;>
    simp [Complex.normSq_mul, Complex.normSq_I]

lemma entrySum_tMap {n : ℕ} (j : Fin n) (l : AmpMap n) :
    entrySum (tMap j l) = entrySum l := by
  simp only [entrySum, tMap, List.map_map]
  congr 1
  apply List.map_congr_left
  intro p _
  simp only [Function.comp_apply]
  cases hp : p.1 j <;>
    simp [Complex.normSq_mul, normSq_tPhase]

lemma entrySum_eq_sum_toFinset {n : ℕ} {l : AmpMap n} (h : (keys l).Nodup) :
    entrySum l = ∑ b ∈ (keys l).toFinset, Complex.normSq (toFun l b) := by
  induction l with
  | nil => simp [entrySum, keys]
  | cons p t ih =>
    rw [keys, List.map_cons, List.nodup_cons] at h
    have hp1 : p.1 ∉ (keys t).toFinset := fun hc => h.1 (List.mem_toFinset.1 hc)
    rw [entrySum, List.map_cons, List.sum_cons, ← entrySum, ih h.2]
    rw [show keys (p :: t) = p.1 :: keys t from rfl, List.toFinset_cons,
      Finset.sum_insert hp1]
    congr 1
    · rw [toFun_cons, if_pos rfl, toFun_eq_zero_of_not_mem h.1, add_zero]
    · apply Finset.sum_congr rfl
      intro b hb
      have hbne : p.1 ≠ b := by
        intro he
        exact h.1 (he ▸ List.mem_toFinset.1 hb)
      rw [toFun_cons, if_neg hbne, zero_add]

lemma entrySum_eq_sum {n : ℕ} {l : AmpMap n} (h : Complete l) :
    entrySum l = ∑ b : BasisState n, Complex.normSq (toFun l b) := by
  rw [entrySum_eq_sum_toFinset h.1]
  congr 1
  exact Finset.eq_univ_iff_forall.2 (fun b => List.mem_toFinset.2 (h.2 b))

lemma sum_split {n : ℕ} (j : Fin n) (Φ : BasisState n → ℝ) :
    ∑ b : BasisState n, Φ b =
      ∑ b ∈ Finset.univ.filter (fun b : BasisState n => b j = false),
        (Φ b + Φ (set_bit b j true)) := by
  rw [← Finset.sum_filter_add_sum_filter_not Finset.univ
    (fun b : BasisState n => b j = false) Φ, Finset.sum_add_distrib]
  congr 1
  refine Finset.sum_nbij' (fun b => set_bit b j false) (fun b => set_bit b j true)
    ?_ ?_ ?_ ?_ ?_
  · intro b hb
    simp only [Finset.mem_filter, Finset.mem_univ, true_and] at hb ⊢
    simp [set_bit_apply_self]
  · intro b hb
    simp only [Finset.mem_filter, Finset.mem_univ, true_and] at hb ⊢
    simp [set_bit_apply_self]
  · intro b hb
    simp only [Finset.mem_filter, Finset.mem_univ, true_and] at hb
    have hbj : b j = true := by
      revert hb
      cases b j <;> simp
    simp only [set_bit_set_bit]
    exact set_bit_self_of_eq hbj
  · intro b hb
    simp only [Finset.mem_filter, Finset.mem_univ, true_and] at hb
    simp only [set_bit_set_bit]
    exact set_bit_self_of_eq hb
  · intro b hb
    simp only [Finset.mem_filter, Finset.mem_univ, true_and] at hb
    have hbj : b j = true := by
      revert hb
      cases b j <;> simp
    simp only [set_bit_set_bit, set_bit_self_of_eq hbj]

lemma entrySum_hMap {n : ℕ} (j : Fin n) {l : AmpMap n} (h : Complete l) :
    entrySum (hMap j l) = entrySum l := by
  rw [entrySum_eq_sum (Complete_hMap j h.2), entrySum_eq_sum h,
    sum_split j (fun b => Complex.normSq (toFun (hMap j l) b)),
    sum_split j (fun b => Complex.normSq (toFun l b))]
  apply Finset.sum_congr rfl
  intro b hb
  rw [Finset.mem_filter] at hb
  dsimp only
  rw [toFun_hMap_false j l hb.2,
    toFun_hMap_true j l (set_bit_apply_self b j true), set_bit_set_bit,
    set_bit_self_of_eq hb.2, Complex.normSq_mul, Complex.normSq_mul,
    normSq_coe_norm, Complex.normSq_add, Complex.normSq_sub]
  ring

/-! ### The initial amplitude map -/

lemma natToBits_zero (n : ℕ) : natToBits n 0 = zeroBasis n := by
  funext j
  simp [natToBits, zeroBasis]

lemma natToBits_injOn {n i i' : ℕ} (hi : i < 2 ^ n) (hi' : i' < 2 ^ n)
    (h : natToBits n i = natToBits n i') : i = i' := by
  apply Nat.eq_of_testBit_eq
  intro k
  by_cases hk : k < n
  · have hkk : n - 1 - (n - 1 - k) = k := by omega
    have := congrFun h ⟨n - 1 - k, by omega⟩
    rw [natToBits, natToBits] at this
    simpa [hkk] using this
  · have h1 : i < 2 ^ k := lt_of_lt_of_le hi (Nat.pow_le_pow_right (by norm_num) (by omega))
    have h2 : i' < 2 ^ k := lt_of_lt_of_le hi' (Nat.pow_le_pow_right (by norm_num) (by omega))
    rw [Nat.testBit_lt_two_pow h1, Nat.testBit_lt_two_pow h2]

lemma keys_initAmp (n : ℕ) :
    keys (initAmp n) = (List.range (2 ^ n)).map (natToBits n) := by
  simp [keys, initAmp, List.map_map, Function.comp]

lemma nodup_keys_initAmp (n : ℕ) : (keys (initAmp n)).Nodup := by
  rw [keys_initAmp]
  refine List.Nodup.map_on ?_ (List.nodup_range _)
  intro i hi i' hi' h
  exact natToBits_injOn (List.mem_range.1 hi) (List.mem_range.1 hi') h

lemma initAmp_length (n : ℕ) : (initAmp n).length = 2 ^ n := by
  simp [initAmp]

lemma card_basisState (n : ℕ) : Fintype.card (BasisState n) = 2 ^ n := by
  have h : Fintype.card (BasisState n) = Fintype.card (Fin n → Bool) := rfl
  rw [h, Fintype.card_fun, Fintype.card_bool, Fintype.card_fin]

lemma mem_keys_initAmp (n : ℕ) (b : BasisState n) : b ∈ keys (initAmp n) := by
  have hlen : (keys (initAmp n)).length = 2 ^ n := by
    rw [keys, List.length_map, initAmp_length]
  have hcard : (keys (initAmp n)).toFinset.card = Fintype.card (BasisState n) := by
    rw [List.toFinset_card_of_nodup (nodup_keys_initAmp n), hlen, card_basisState]
  have huniv : (keys (initAmp n)).toFinset = Finset.univ :=
    Finset.eq_univ_of_card _ hcard
  have : b ∈ (keys (initAmp n)).toFinset := huniv ▸ Finset.mem_univ b
  exact List.mem_toFinset.1 this

lemma Complete_initAmp (n : ℕ) : Complete (initAmp n) :=
  ⟨nodup_keys_initAmp n, mem_keys_initAmp n⟩

lemma Complete_length {n : ℕ} {l : AmpMap n} (h : Complete l) :
    l.length = 2 ^ n := by
  have h1 : l.length = (keys l).length := (List.length_map _ _).symm
  have h2 : (keys l).toFinset = Finset.univ :=
    Finset.eq_univ_iff_forall.2 (fun b => List.mem_toFinset.2 (h.2 b))
  have h3 : (keys l).toFinset.card = (keys l).length :=
    List.toFinset_card_of_nodup h.1
  rw [h1, ← h3, h2, Finset.card_univ, card_basisState]

lemma toFun_initAmp (n : ℕ) (b : BasisState n) :
    toFun (initAmp n) b = if b = zeroBasis n then 1 else 0 := by
  rcases List.mem_map.1 (mem_keys_initAmp n b) with ⟨p, hp, hpb⟩
  have hval := toFun_entry (nodup_keys_initAmp n) hp
  rcases List.mem_map.1 hp with ⟨i, hi, hie⟩
  have hkey : natToBits n i = b := by rw [← hpb, ← hie]
  have hamp : p.2 = if i = 0 then 1 else 0 := by rw [← hie]
  rw [hpb] at hval
  rw [hval, hamp]
  by_cases hb : b = zeroBasis n
  · have : i = 0 := by
      apply natToBits_injOn (List.mem_range.1 hi) (Nat.pos_pow_of_pos n (by norm_num))
      rw [hkey, hb, natToBits_zero]
    rw [if_pos this, if_pos hb]
  · have : i ≠ 0 := by
      intro he
      subst he
      rw [natToBits_zero] at hkey
      exact hb hkey.symm
    rw [if_neg this, if_neg hb]

lemma entrySum_initAmp (n : ℕ) : entrySum (initAmp n) = 1 := by
  rw [entrySum_eq_sum (Complete_initAmp n)]
  have h : ∀ b : BasisState n,
      Complex.normSq (toFun (initAmp n) b) = if b = zeroBasis n then 1 else 0 := by
    intro b
    rw [toFun_initAmp]
    by_cases hb : b = zeroBasis n <;> simp [hb]
  rw [Finset.sum_congr rfl (fun b _ => h b)]
  simp

/-! ### Gate identities used by the involution and phase-order claims -/

lemma xMap_xMap {n : ℕ} (j : Fin n) (l : AmpMap n) : xMap j (xMap j l) = l := by
  simp only [xMap, List.map_map]
  rw [List.map_congr_left, List.map_id]
  intro p _
  simp only [Function.comp_apply, flip_flip]
  rfl

lemma sMap_four {n : ℕ} (j : Fin n) (l : AmpMap n) :
    sMap j (sMap j (sMap j (sMap j l))) = l := by
  simp only [sMap, List.map_map]
  rw [List.map_congr_left, List.map_id]
  intro p _
  simp only [Function.comp_apply]
  cases hp : p.1 j
  · simp
  · simp only [cond_true, pow_one]
    have hI : Complex.I * (Complex.I * (Complex.I * (Complex.I * p.2))) =
        Complex.I ^ 4 * p.2 := by ring
    rw [hI, Complex.I_pow_four, one_mul]
    rfl

lemma tPhase_pow_eight : tPhase ^ 8 = 1 := by
  rw [tPhase, ← Complex.exp_nat_mul]
  rw [show ((8 : ℕ) : ℂ) * (Complex.I * (Real.pi : ℂ) / 4) =
      2 * (Real.pi : ℂ) * Complex.I by push_cast; ring]
  exact Complex.exp_two_pi_mul_I

lemma tMap_eight {n : ℕ} (j : Fin n) (l : AmpMap n) :
    tMap j (tMap j (tMap j (tMap j (tMap j (tMap j (tMap j (tMap j l))))))) = l := by
  simp only [tMap, List.map_map]
  rw [List.map_congr_left, List.map_id]
  intro p _
  simp only [Function.comp_apply]
  cases hp : p.1 j
  · simp
  · simp only [cond_true, pow_one]
    have hT : tPhase * (tPhase * (tPhase * (tPhase * (tPhase * (tPhase *
        (tPhase * (tPhase * p.2))))))) = tPhase ^ 8 * p.2 := by ring
    rw [hT, tPhase_pow_eight, one_mul]
    rfl

lemma toFun_hMap_hMap {n : ℕ} (j : Fin n) (l : AmpMap n) (b : BasisState n) :
    toFun (hMap j (hMap j l)) b = toFun l b := by
  cases hb : b j
  · rw [toFun_hMap_false j _ hb, toFun_hMap_false j l hb,
      toFun_hMap_true j l (set_bit_apply_self b j true), set_bit_set_bit,
      set_bit_self_of_eq hb]
    calc ((toFun l b + toFun l (set_bit b j true)) * (norm : ℂ) +
          (toFun l b - toFun l (set_bit b j true)) * (norm : ℂ)) * (norm : ℂ)
        = (2 * toFun l b) * ((norm : ℂ) * (norm : ℂ)) := by ring
      _ = toFun l b := by rw [coe_norm_mul_self]; ring
  · rw [toFun_hMap_true j _ hb, toFun_hMap_false j l (set_bit_apply_self b j false),
      toFun_hMap_true j l hb, set_bit_set_bit, set_bit_self_of_eq hb]
    calc ((toFun l (set_bit b j false) + toFun l b) * (norm : ℂ) -
          (toFun l (set_bit b j false) - toFun l b) * (norm : ℂ)) * (norm : ℂ)
        = (2 * toFun l b) * ((norm : ℂ) * (norm : ℂ)) := by ring
      _ = toFun l b := by rw [coe_norm_mul_self]; ring

/-! ### State-level invariants over gate sequences -/

lemma applyGate_wf {n : ℕ} {g : Gate} (hg : g.wf n) {st : State n} {l : AmpMap n}
    (hst : st.state = some l) (hC : Complete l) (hS : entrySum l = 1) :
    ∃ l', (applyGate g st).state = some l' ∧ Complete l' ∧ entrySum l' = 1 := by
  cases g with
  | x j =>
    have hj : j < n := hg
    refine ⟨xMap ⟨j, hj⟩ l, ?_, Complete_xMap _ hC, by rw [entrySum_xMap]; exact hS⟩
    simp [applyGate, State.x, hst, hj]
  | cx j k =>
    obtain ⟨hj, hk, hjk⟩ := hg
    refine ⟨cxMap ⟨j, hj⟩ ⟨k, hk⟩ l, ?_,
      Complete_cxMap (Fin.ne_of_val_ne hjk) hC,
      by rw [entrySum_cxMap]; exact hS⟩
    simp [applyGate, State.cx, hst, hj, hk]
  | s j =>
    have hj : j < n := hg
    refine ⟨sMap ⟨j, hj⟩ l, ?_, Complete_sMap _ hC, by rw [entrySum_sMap]; exact hS⟩
    simp [applyGate, State.s, hst, hj]
  | t j =>
    have hj : j < n := hg
    refine ⟨tMap ⟨j, hj⟩ l, ?_, Complete_tMap _ hC, by rw [entrySum_tMap]; exact hS⟩
    simp [applyGate, State.t, hst, hj]
  | h j =>
    have hj : j < n := hg
    refine ⟨hMap ⟨j, hj⟩ l, ?_, Complete_hMap _ hC.2, by rw [entrySum_hMap _ hC]; exact hS⟩
    simp [applyGate, State.h, hst, hj]

lemma applyGates_wf {n : ℕ} {gs : List Gate} (hgs : ∀ g ∈ gs, g.wf n) :
    ∀ {st : State n} {l : AmpMap n}, st.state = some l → Complete l →
      entrySum l = 1 →
      ∃ l', (applyGates gs st).state = some l' ∧ Complete l' ∧ entrySum l' = 1 := by
  induction gs with
  | nil =>
    intro st l hst hC hS
    exact ⟨l, hst, hC, hS⟩
  | cons g t ih =>
    intro st l hst hC hS
    obtain ⟨l', hst', hC', hS'⟩ :=
      applyGate_wf (hgs g (List.mem_cons_self g t)) hst hC hS
    exact ih (fun g' hg' => hgs g' (List.mem_cons_of_mem g hg')) hst' hC' hS'

/-! ### State-level gate chains -/

lemma x_x_state {n : ℕ} (st : State n) {j : ℕ} (hj : j < n) :
    ((st.x j).x j).state = st.state := by
  cases hst : st.state with
  | none => simp [State.x, hst]
  | some l => simp [State.x, hst, hj, xMap_xMap]

lemma s_four_state {n : ℕ} (st : State n) {j : ℕ} (hj : j < n) :
    ((((st.s j).s j).s j).s j).state = st.state := by
  cases hst : st.state with
  | none => simp [State.s, hst]
  | some l => simp [State.s, hst, hj, sMap_four]

lemma t_eight_state {n : ℕ} (st : State n) {j : ℕ} (hj : j < n) :
    ((((((((st.t j).t j).t j).t j).t j).t j).t j).t j).state = st.state := by
  cases hst : st.state with
  | none => simp [State.t, hst]
  | some l => simp [State.t, hst, hj, tMap_eight]

lemma h_h_state {n : ℕ} (st : State n) {j : ℕ} (hj : j < n) {l : AmpMap n}
    (hst : st.state = some l) :
    ((st.h j).h j).state = some (hMap ⟨j, hj⟩ (hMap ⟨j, hj⟩ l)) := by
  simp [State.h, hst, hj]

/-! ### Lemmas about `run` -/

lemma copy_eq_self {n : ℕ} (st : State n) : st.copy = st := rfl

lemma measureOne_isSome {n : ℕ} (rand : ℕ → ℝ) (acc : AmpMap n × List Bool × ℕ)
    {q : ℕ} (hq : q < n) : ∃ r, measureOne rand acc q = some r := by
  rw [measureOne, dif_pos hq]
  exact ⟨_, rfl⟩

lemma foldlM_measureOne_isSome {n : ℕ} (rand : ℕ → ℝ) (qs : List ℕ)
    (hqs : ∀ q ∈ qs, q < n) :
    ∀ acc : AmpMap n × List Bool × ℕ,
      ∃ r, qs.foldlM (measureOne rand) acc = some r := by
  induction qs with
  | nil => intro acc; exact ⟨acc, rfl⟩
  | cons q t ih =>
    intro acc
    obtain ⟨r1, hr1⟩ := measureOne_isSome rand acc (hqs q (List.mem_cons_self q t))
    obtain ⟨r2, hr2⟩ := ih (fun q' hq' => hqs q' (List.mem_cons_of_mem q hq')) r1
    refine ⟨r2, ?_⟩
    rw [List.foldlM_cons, hr1]
    exact hr2

lemma doShot_isSome {n : ℕ} (rand : ℕ → ℝ) {st : State n} {cs : AmpMap n}
    (hst : st.state = some cs) (qs : List ℕ) (hqs : ∀ q ∈ qs, q < n) (k : ℕ) :
    ∃ r, doShot rand st qs k = some r := by
  obtain ⟨r, hr⟩ := foldlM_measureOne_isSome rand qs hqs
    (cs, List.replicate n false, k)
  refine ⟨(if st.measure_all_flag then r.2.1
    else qs.map (fun q => r.2.1.getD q false), r.2.2), ?_⟩
  have hcopy : st.copy.state = some cs := hst
  simp [doShot, hcopy, hr]

lemma runLoop_isSome {n : ℕ} (rand : ℕ → ℝ) {st : State n} {cs : AmpMap n}
    (hst : st.state = some cs) (qs : List ℕ) (hqs : ∀ q ∈ qs, q < n) :
    ∀ (m : ℕ) (counts : List (List Bool × ℕ)) (k : ℕ),
      ∃ c, runLoop rand st qs m counts k = some c := by
  intro m
  induction m with
  | zero => intro counts k; exact ⟨counts, rfl⟩
  | succ m ih =>
    intro counts k
    obtain ⟨r, hr⟩ := doShot_isSome rand hst qs hqs k
    obtain ⟨c, hc⟩ := ih (addCount counts r.1) r.2
    refine ⟨c, ?_⟩
    rw [runLoop, hr]
    exact hc

/-! ### Claim theorems -/

/-- C1 (counterexample): the claim says the initial AmplitudeMap contains
exactly one entry; on a freshly constructed 1-qubit state the map in fact has
two entries (`__init__` materialises every basis state, zero amplitudes
included). -/
theorem claim_C1_counterexample :
    (State.init 1 0).state = some (initAmp 1) ∧ (initAmp 1).length = 2 ∧
      ¬(initAmp 1).length = 1 := by
  refine ⟨rfl, ?_, ?_⟩
  · rw [initAmp_length]
    norm_num
  · rw [initAmp_length]
    norm_num

/-- C1 (amended): for every `n_qubits > 0` and `n_bits ≥ 0`, the state
produced by `construct(n_qubits, n_bits)` has an AmplitudeMap with exactly
`2 ^ n_qubits` entries, one for each BasisState, where the all-zero BasisState
has amplitude 1.0 and every other BasisState has amplitude 0.0. -/
theorem claim_C1 (n n_bits : ℕ) (hn : 0 < n) :
    (State.init n n_bits).state = some (initAmp n) ∧
      (initAmp n).length = 2 ^ n ∧
      (keys (initAmp n)).Nodup ∧
      (∀ b : BasisState n, b ∈ keys (initAmp n)) ∧
      (∀ b : BasisState n,
        toFun (initAmp n) b = if b = zeroBasis n then 1 else 0) :=
  ⟨rfl, initAmp_length n, nodup_keys_initAmp n, mem_keys_initAmp n,
    toFun_initAmp n⟩

theorem claim_C1_witness :
    0 < 1 ∧ ((State.init 1 0).state = some (initAmp 1) ∧
      (initAmp 1).length = 2 ^ 1 ∧
      (keys (initAmp 1)).Nodup ∧
      (∀ b : BasisState 1, b ∈ keys (initAmp 1)) ∧
      (∀ b : BasisState 1,
        toFun (initAmp 1) b = if b = zeroBasis 1 then 1 else 0)) :=
  ⟨by norm_num, claim_C1 1 0 (by norm_num)⟩

/-- C2 (amended): for every freshly constructed state and every finite
sequence of gate calls (x, cx with distinct control and target, s, t, h) with
in-range qubit indices, the sum over all AmplitudeMap entries of the squared
magnitude of the amplitude equals 1 within tolerance 1e-9 (in the exact-real
model the sum is exactly 1). -/
theorem claim_C2 (n n_bits : ℕ) (gs : List Gate) (hgs : ∀ g ∈ gs, g.wf n) :
    ∃ l, (applyGates gs (State.init n n_bits)).state = some l ∧
      |entrySum l - 1| ≤ 1e-9 := by
  obtain ⟨l, hst, _, hS⟩ :=
    applyGates_wf hgs
      (show (State.init n n_bits).state = some (initAmp n) from rfl)
      (Complete_initAmp n) (entrySum_initAmp n)
  refine ⟨l, hst, ?_⟩
  rw [hS]
  norm_num

theorem claim_C2_witness :
    (∀ g ∈ [Gate.h 0], g.wf 1) ∧
      ∃ l, (applyGates [Gate.h 0] (State.init 1 0)).state = some l ∧
        |entrySum l - 1| ≤ 1e-9 :=
  ⟨by decide, claim_C2 1 0 [Gate.h 0] (by decide)⟩

/-- C2 (counterexample): the claim quantifies over all in-range gate calls,
including cx with equal control and target; on a 1-qubit register the sequence
h(0); cx(0,0); h(0) (all indices in range) merges basis states and yields an
AmplitudeMap whose squared-magnitude sum is 2, not 1 within 1e-9. -/
theorem claim_C2_counterexample :
    ∃ l, (applyGates [Gate.h 0, Gate.cx 0 0, Gate.h 0] (State.init 1 0)).state =
        some l ∧ ¬(|entrySum l - 1| ≤ 1e-9) := by
  have hj : (0:ℕ) < 1 := by norm_num
  have hz : (⟨0, hj⟩ : Fin 1) = 0 := rfl
  have f1 : set_bit (natToBits 1 0) (0 : Fin 1) false = natToBits 1 0 := by decide
  have f2 : set_bit (natToBits 1 0) (0 : Fin 1) true = natToBits 1 1 := by decide
  have f3 : set_bit (natToBits 1 1) (0 : Fin 1) false = natToBits 1 0 := by decide
  have f4 : set_bit (natToBits 1 1) (0 : Fin 1) true = natToBits 1 1 := by decide
  have f5 : natToBits 1 0 (0 : Fin 1) = false := by decide
  have f6 : natToBits 1 1 (0 : Fin 1) = true := by decide
  have f7 : ¬ natToBits 1 1 = natToBits 1 0 := by decide
  have f8 : ¬ natToBits 1 0 = natToBits 1 1 := by decide
  have f9 : flip (natToBits 1 1) (0 : Fin 1) = natToBits 1 0 := by decide
  have e_init : initAmp 1 = [(natToBits 1 0, 1), (natToBits 1 1, 0)] := rfl
  have h1 : (applyGates [Gate.h 0, Gate.cx 0 0, Gate.h 0] (State.init 1 0)).state
      = some (hMap (0 : Fin 1) (cxMap (0 : Fin 1) (0 : Fin 1)
          (hMap (0 : Fin 1) (initAmp 1)))) := by
    simp [applyGates, applyGate, State.h, State.cx, State.init, hj]
  have eL1 : hMap (0 : Fin 1) (initAmp 1) =
      [(natToBits 1 0, 1 * (norm:ℂ) + 0 * (norm:ℂ)),
       (natToBits 1 1, 1 * (norm:ℂ) * psign false + 0 * (norm:ℂ) * psign true)] := by
    rw [e_init]
    simp only [hMap, hBranch, List.map_cons, List.map_nil, List.flatten_cons,
      List.flatten_nil, f1, f2, f3, f4, f5, f6, reduceByKey, List.foldl_cons,
      List.foldl_nil, insertW, keys]
    simp [f7, f8]
  have eL2 : cxMap (0 : Fin 1) (0 : Fin 1) (hMap (0 : Fin 1) (initAmp 1)) =
      [(natToBits 1 0, 1 * (norm:ℂ) + 0 * (norm:ℂ)),
       (natToBits 1 0, 1 * (norm:ℂ) * psign false + 0 * (norm:ℂ) * psign true)] := by
    rw [eL1]
    simp only [cxMap, List.map_cons, List.map_nil, f5, f6, f9]
    simp
  have eL3 : hMap (0 : Fin 1) (cxMap (0 : Fin 1) (0 : Fin 1)
      (hMap (0 : Fin 1) (initAmp 1))) =
      [(natToBits 1 0,
        (1 * (norm:ℂ) + 0 * (norm:ℂ)) * (norm:ℂ) +
        (1 * (norm:ℂ) * psign false + 0 * (norm:ℂ) * psign true) * (norm:ℂ)),
       (natToBits 1 1,
        (1 * (norm:ℂ) + 0 * (norm:ℂ)) * (norm:ℂ) * psign false +
        (1 * (norm:ℂ) * psign false + 0 * (norm:ℂ) * psign true) * (norm:ℂ) *
          psign false)] := by
    rw [eL2]
    simp only [hMap, hBranch, List.map_cons, List.map_nil, List.flatten_cons,
      List.flatten_nil, f1, f2, f5, reduceByKey, List.foldl_cons,
      List.foldl_nil, insertW, keys]
    simp [f7, f8]
  have hamp : ((1 * (norm:ℂ) + 0 * (norm:ℂ)) * (norm:ℂ) +
      (1 * (norm:ℂ) * psign false + 0 * (norm:ℂ) * psign true) * (norm:ℂ)) = 1 := by
    simp [psign]
    rw [← two_mul, ← mul_assoc]
    rw [show (2:ℂ) * (norm:ℂ) * (norm:ℂ) = 2 * ((norm:ℂ) * (norm:ℂ)) by ring,
      coe_norm_mul_self]
    norm_num
  have hsum : entrySum (hMap (0 : Fin 1) (cxMap (0 : Fin 1) (0 : Fin 1)
      (hMap (0 : Fin 1) (initAmp 1)))) = 2 := by
    rw [eL3, entrySum]
    simp only [List.map_cons, List.map_nil, List.sum_cons, List.sum_nil, add_zero]
    rw [show ((1 * (norm:ℂ) + 0 * (norm:ℂ)) * (norm:ℂ) * psign false +
        (1 * (norm:ℂ) * psign false + 0 * (norm:ℂ) * psign true) * (norm:ℂ) *
          psign false) = ((1 * (norm:ℂ) + 0 * (norm:ℂ)) * (norm:ℂ) +
        (1 * (norm:ℂ) * psign false + 0 * (norm:ℂ) * psign true) * (norm:ℂ))
        by simp [psign]]
    rw [hamp]
    simp only [Complex.normSq_one]
    norm_num
  refine ⟨_, h1, ?_⟩
  rw [hsum]
  norm_num

/-- C3: for every state and in-range qubit index j, applying X twice returns
the AmplitudeMap to its pre-X content (literally the same entry list), and
applying Hadamard twice (each application followed by its merge) returns the
original map: every basis state has its original amplitude back. -/
theorem claim_C3 (n : ℕ) (st : State n) (j : ℕ) (hj : j < n) :
    ((st.x j).x j).state = st.state ∧
      ∀ l, st.state = some l →
        ∃ l', ((st.h j).h j).state = some l' ∧
          ∀ b : BasisState n, toFun l' b = toFun l b := by
  refine ⟨x_x_state st hj, fun l hl => ?_⟩
  exact ⟨_, h_h_state st hj hl, fun b => toFun_hMap_hMap ⟨j, hj⟩ l b⟩

theorem claim_C3_witness :
    0 < 1 ∧ ((((State.init 1 0).x 0).x 0).state = (State.init 1 0).state ∧
      ∀ l, (State.init 1 0).state = some l →
        ∃ l', (((State.init 1 0).h 0).h 0).state = some l' ∧
          ∀ b : BasisState 1, toFun l' b = toFun l b) :=
  ⟨by norm_num, claim_C3 1 (State.init 1 0) 0 (by norm_num)⟩

/-- C4: for every state and in-range qubit index j, applying S four times is
the identity on the AmplitudeMap, and applying T eight times is likewise the
identity (the stored entry list is literally restored). -/
theorem claim_C4 (n : ℕ) (st : State n) (j : ℕ) (hj : j < n) :
    ((((st.s j).s j).s j).s j).state = st.state ∧
      ((((((((st.t j).t j).t j).t j).t j).t j).t j).t j).state = st.state :=
  ⟨s_four_state st hj, t_eight_state st hj⟩

theorem claim_C4_witness :
    0 < 1 ∧
      ((((((State.init 1 0).s 0).s 0).s 0).s 0).state = (State.init 1 0).state ∧
        (((((((((State.init 1 0).t 0).t 0).t 0).t 0).t 0).t 0).t 0).t 0).state =
          (State.init 1 0).state) :=
  ⟨by norm_num, claim_C4 1 (State.init 1 0) 0 (by norm_num)⟩

/-- C5 (counterexample): the claim says an out-of-range index in a
measurement-marking call is a fatal error; in fact `measure(5)` on a 1-qubit
state completes normally, records index 5 in the plan, and leaves the
amplitude pipeline intact. -/
theorem claim_C5_counterexample :
    ((State.init 1 0).measure 5 none).state = some (initAmp 1) ∧
      ((State.init 1 0).measure 5 none).measurement_qubits = {5} :=
  ⟨rfl, by decide⟩

/-- C5 (amended): a gate call (x, cx, s, t, h) with a qubit index ≥ n_qubits
does not abort at call time; it leaves the amplitude map as a failed lazy
pipeline that raises when next forced (for cx this also happens when only the
target is out of range, since the map contains an entry with the control bit
set); `measure` performs no validation: with any index it succeeds and merely
records the index in the measurement plan. -/
theorem claim_C5 (n : ℕ) (hn : 0 < n) (st : State n) (l : AmpMap n)
    (hst : st.state = some l) (hC : Complete l) (j k : ℕ) (hj : n ≤ j) :
    (st.x j).state = none ∧ (st.s j).state = none ∧ (st.t j).state = none ∧
      (st.h j).state = none ∧ (st.cx j k).state = none ∧
      (∀ (j' : ℕ), j' < n → n ≤ k → (st.cx j' k).state = none) ∧
      ∀ (q : ℕ) (c : Option ℕ), (st.measure q c).state = st.state ∧
        (st.measure q c).measurement_qubits = insert q st.measurement_qubits := by
  have hnj : ¬ j < n := by omega
  have hne : ¬ l = [] := by
    intro h
    subst h
    have := hC.2 (zeroBasis n)
    simp [keys] at this
  refine ⟨?_, ?_, ?_, ?_, ?_, ?_, ?_⟩
  · simp [State.x, hst, hnj, hne]
  · simp [State.s, hst, hnj, hne]
  · simp [State.t, hst, hnj, hne]
  · simp [State.h, hst, hnj, hne]
  · simp [State.cx, hst, hnj, hne]
  · intro j' hj' hk
    have hnk : ¬ k < n := by omega
    have hall : l.all (fun p => !(p.1 ⟨j', hj'⟩)) = false := by
      rcases List.mem_map.1 (hC.2 (set_bit (zeroBasis n) ⟨j', hj'⟩ true)) with
        ⟨p, hp, hpb⟩
      rw [List.all_eq_false]
      refine ⟨p, hp, ?_⟩
      rw [hpb, set_bit_apply_self]
      simp
    simp [State.cx, hst, hj', hnk, hall]
  · intro q c
    exact ⟨rfl, rfl⟩

theorem claim_C5_witness :
    (0 < 1 ∧ (State.init 1 0).state = some (initAmp 1) ∧ Complete (initAmp 1) ∧
        1 ≤ 1) ∧
      (((State.init 1 0).x 1).state = none ∧
        ((State.init 1 0).s 1).state = none ∧
        ((State.init 1 0).t 1).state = none ∧
        ((State.init 1 0).h 1).state = none ∧
        ((State.init 1 0).cx 1 0).state = none ∧
        (∀ (j' : ℕ), j' < 1 → 1 ≤ 0 → ((State.init 1 0).cx j' 0).state = none) ∧
        ∀ (q : ℕ) (c : Option ℕ),
          ((State.init 1 0).measure q c).state = (State.init 1 0).state ∧
            ((State.init 1 0).measure q c).measurement_qubits =
              insert q (State.init 1 0).measurement_qubits) :=
  ⟨⟨by norm_num, rfl, by decide, le_refl 1⟩,
    claim_C5 1 (by norm_num) (State.init 1 0) (initAmp 1) rfl (by decide) 1 0
      (le_refl 1)⟩

/-- C6 (counterexample): the claim says a gate call either fully transforms
the map or fails outright before any mutation is visible; the call `x(1)` on a
fresh 1-qubit state does neither: it returns normally, and the stored
amplitude pipeline has been replaced by a failed computation (the error
surfaces only when the map is next forced). -/
theorem claim_C6_counterexample :
    ((State.init 1 0).x 1).state = none ∧
      (State.init 1 0).state = some (initAmp 1) := by
  constructor
  · have hne : ¬ initAmp 1 = [] := by
      intro h
      have hlen := congrArg List.length h
      rw [initAmp_length] at hlen
      norm_num at hlen
    have hnj : ¬ (1 : ℕ) < 1 := by omega
    simp [State.x, State.init, hnj, hne]
  · rfl

/-- C6 (amended): a gate call never leaves a partially transformed map: either
the map becomes the complete transform of the previous list (in-range index),
or the stored pipeline is a failed computation that raises when forced, or the
list was empty and is passed through unchanged; shown here for the claim's
cited gates X and H. -/
theorem claim_C6 (n : ℕ) (st : State n) (l : AmpMap n)
    (hst : st.state = some l) (j : ℕ) :
    ((∃ hj : j < n, (st.x j).state = some (xMap ⟨j, hj⟩ l)) ∨
      (st.x j).state = none ∨ ((st.x j).state = some l ∧ l = [])) ∧
    ((∃ hj : j < n, (st.h j).state = some (hMap ⟨j, hj⟩ l)) ∨
      (st.h j).state = none ∨ ((st.h j).state = some l ∧ l = [])) := by
  constructor
  · by_cases hj : j < n
    · exact Or.inl ⟨hj, by simp [State.x, hst, hj]⟩
    · by_cases hl : l = []
      · exact Or.inr (Or.inr ⟨by simp [State.x, hst, hj, hl], hl⟩)
      · exact Or.inr (Or.inl (by simp [State.x, hst, hj, hl]))
  · by_cases hj : j < n
    · exact Or.inl ⟨hj, by simp [State.h, hst, hj]⟩
    · by_cases hl : l = []
      · exact Or.inr (Or.inr ⟨by simp [State.h, hst, hj, hl], hl⟩)
      · exact Or.inr (Or.inl (by simp [State.h, hst, hj, hl]))

theorem claim_C6_witness :
    (State.init 1 0).state = some (initAmp 1) ∧
      (((∃ hj : (0:ℕ) < 1, ((State.init 1 0).x 0).state =
          some (xMap ⟨0, hj⟩ (initAmp 1))) ∨
        ((State.init 1 0).x 0).state = none ∨
        (((State.init 1 0).x 0).state = some (initAmp 1) ∧ initAmp 1 = [])) ∧
      ((∃ hj : (0:ℕ) < 1, ((State.init 1 0).h 0).state =
          some (hMap ⟨0, hj⟩ (initAmp 1))) ∨
        ((State.init 1 0).h 0).state = none ∨
        (((State.init 1 0).h 0).state = some (initAmp 1) ∧ initAmp 1 = []))) :=
  ⟨rfl, claim_C6 1 (State.init 1 0) (initAmp 1) rfl 0⟩

/-- C7: `run(state, shots)` raises a fatal input error if and only if `shots`
is zero or negative or no qubit is scheduled (empty individual set and unset
all-flag); in either failure case no counts are produced (the result is the
error, not a partial count map).  Stated for well-formed states: the amplitude
pipeline forces successfully and every individually scheduled index is in
range. -/
theorem claim_C7 (n : ℕ) (st : State n) (shots : ℤ) (rand : ℕ → ℝ)
    (cs : AmpMap n) (hst : st.state = some cs)
    (hq : ∀ q ∈ st.measurement_qubits, q < n) :
    run st shots rand = none ↔
      shots ≤ 0 ∨ (st.measurement_qubits = ∅ ∧ st.measure_all_flag = false) := by
  by_cases h1 : shots ≤ 0
  · simp [run, h1]
  by_cases h2 : st.measurement_qubits = ∅ ∧ st.measure_all_flag = false
  · simp [run, h1, h2]
  · have hqs : ∀ q ∈ (if st.measure_all_flag then List.range n
        else st.measurement_qubits.sort (· ≤ ·)), q < n := by
      intro q hqm
      by_cases hf : st.measure_all_flag
      · rw [if_pos hf] at hqm
        exact List.mem_range.1 hqm
      · rw [if_neg hf] at hqm
        exact hq q ((Finset.mem_sort _).1 hqm)
    obtain ⟨c, hc⟩ := runLoop_isSome rand hst _ hqs shots.toNat [] 0
    rw [run, if_neg h1, if_neg h2]
    simp only [hc, Option.map_some]
    simp [h1, h2]

theorem claim_C7_witness :
    ((State.init 1 0).measure_all.state = some (initAmp 1) ∧
        (∀ q ∈ (State.init 1 0).measure_all.measurement_qubits, q < 1)) ∧
      (run (State.init 1 0).measure_all 1 (fun _ => 0) = none ↔
        (1 : ℤ) ≤ 0 ∨ ((State.init 1 0).measure_all.measurement_qubits = ∅ ∧
          (State.init 1 0).measure_all.measure_all_flag = false)) :=
  ⟨⟨rfl, by decide⟩,
    claim_C7 1 (State.init 1 0).measure_all 1 (fun _ => 0) (initAmp 1) rfl
      (by decide)⟩

/-- C8: for every call `run(state, shots)`, the original state's AmplitudeMap,
classical register and MeasurementPlan are unchanged when `run` returns: the
source's `run` assigns only to per-shot deep copies (`state.copy()`), whose
fieldwise value copy equals the original, and never to the caller's state. -/
theorem claim_C8 (n : ℕ) (st : State n) (shots : ℤ) (rand : ℕ → ℝ) :
    (runFull st shots rand).2.state = st.state ∧
      (runFull st shots rand).2.cbits = st.cbits ∧
      (runFull st shots rand).2.measurement_qubits = st.measurement_qubits ∧
      (runFull st shots rand).2.measure_all_flag = st.measure_all_flag ∧
      st.copy = st :=
  ⟨rfl, rfl, rfl, rfl, rfl⟩

/-- C9: during the per-qubit collapse step, division by zero never occurs:
when the observed outcome's probability is numerically zero, the collapse
filter (whose per-entry condition includes the positivity guard) keeps no
entry, so the renormalizing division is applied to no entry of that branch and
the surviving list is empty. -/
theorem claim_C9 (n : ℕ) (q : Fin n) (cs : AmpMap n) (p : ℝ) (hp : p = 0) :
    cs.filter (fun e => !(e.1 q) && decide (0 < p)) = [] ∧
      cs.filter (fun e => e.1 q && decide (0 < p)) = [] ∧
      collapse0 q p cs = [] ∧ collapse1 q p cs = [] := by
  subst hp
  have hd : decide ((0:ℝ) < 0) = false := decide_eq_false (lt_irrefl 0)
  refine ⟨?_, ?_, ?_, ?_⟩ <;> simp [collapse0, collapse1, hd]

theorem claim_C9_witness :
    (0 : ℝ) = 0 ∧
      ((initAmp 1).filter (fun e => !(e.1 0) && decide ((0:ℝ) < 0)) = [] ∧
        (initAmp 1).filter (fun e => e.1 0 && decide ((0:ℝ) < 0)) = [] ∧
        collapse0 (0 : Fin 1) (0:ℝ) (initAmp 1) = [] ∧
        collapse1 (0 : Fin 1) (0:ℝ) (initAmp 1) = []) :=
  ⟨rfl, claim_C9 1 0 (initAmp 1) 0 rfl⟩

/-- C10: for every freshly constructed state and every sequence of gate calls
(x, cx with distinct control and target, s, t, h) with in-range indices, the
AmplitudeMap contains exactly `2 ^ n_qubits` entries, exactly one per possible
BasisState: zero-amplitude basis states are materialised as entries, not
omitted. -/
theorem claim_C10 (n n_bits : ℕ) (gs : List Gate) (hgs : ∀ g ∈ gs, g.wf n) :
    ∃ l, (applyGates gs (State.init n n_bits)).state = some l ∧
      l.length = 2 ^ n ∧ (keys l).Nodup ∧ ∀ b : BasisState n, b ∈ keys l := by
  obtain ⟨l, hst, hC, _⟩ :=
    applyGates_wf hgs
      (show (State.init n n_bits).state = some (initAmp n) from rfl)
      (Complete_initAmp n) (entrySum_initAmp n)
  exact ⟨l, hst, Complete_length hC, hC.1, hC.2⟩

theorem claim_C10_witness :
    (∀ g ∈ [Gate.x 0, Gate.h 0], g.wf 1) ∧
      ∃ l, (applyGates [Gate.x 0, Gate.h 0] (State.init 1 0)).state = some l ∧
        l.length = 2 ^ 1 ∧ (keys l).Nodup ∧ ∀ b : BasisState 1, b ∈ keys l :=
  ⟨by decide, claim_C10 1 0 [Gate.x 0, Gate.h 0] (by decide)⟩

end QuantumSim
